import Mathlib

/-!
Shallow embedding of `src/TTS_BatchTextSplitter/TTS_Streaming_Batch_Nodes.py`
(the `TTS_BatchTextSplitter.split_to_batch` method and its five strategy
helpers), together with theorems settling the claims about it.

Modelling conventions:
* Python strings are `List Char` (Python indexes and measures strings by
  code point, exactly like `List Char`); `str.strip()` is `pyStrip`.
* The specific regular expressions appearing in the source are hand-compiled
  to recursive scanning functions; each definition's comment states the
  pattern it implements and the CPython `re` semantics it follows.
* An arbitrary user-supplied pattern (the custom-regex strategy) is
  abstracted by its match semantics: an `Option (List Char → List PyMatch)`,
  `none` standing for a pattern that fails to compile (`re.error`), and
  `some f` for a compiled pattern whose left-to-right non-overlapping match
  list on input `t` is `f t` (spans plus captured-group texts).  `re.split`
  over such a match list is `pySplitMatches`.
* `print` diagnostics are side effects with no influence on the returned
  value; they are not modelled.
-/

/-- Python `str.strip()` whitespace class (ASCII whitespace; the characters
relevant to this repository). -/
def isPySpace (c : Char) : Bool :=
  c = ' ' || c = '\t' || c = '\n' || c = '\r' || c = '\x0b' || c = '\x0c'

/-- Python `s.strip()`: drop leading and trailing whitespace. -/
def pyStrip (l : List Char) : List Char :=
  ((l.dropWhile isPySpace).reverse.dropWhile isPySpace).reverse

/-- The delimiter class `[。！？；…!?.;]` of `_split_by_punctuation`. -/
def isPunctDelim (c : Char) : Bool :=
  c = '。' || c = '！' || c = '？' || c = '；' || c = '…' ||
  c = '!' || c = '?' || c = '.' || c = ';'

/-- The terminal-punctuation class `[。！？!?]` of `_split_intelligent`
(pass 1); narrower than `isPunctDelim`. -/
def isTermDelim (c : Char) : Bool :=
  c = '。' || c = '！' || c = '？' || c = '!' || c = '?'

/-- The comma/semicolon class `[，；,;]` of `_split_intelligent` (pass 2). -/
def isPauseDelim (c : Char) : Bool :=
  c = '，' || c = '；' || c = ',' || c = ';'

/-- Accumulator loop for `text.split('|')`: standard Python `str.split` on a
single character, keeping empty pieces. -/
def splitPipeAux (acc : List Char) : List Char → List (List Char)
  | [] => [acc]
  | c :: rest =>
    if c = '|' then acc :: splitPipeAux [] rest
    else splitPipeAux (acc ++ [c]) rest

/-- Model of `_split_by_pipe`: `text.split('|')`. -/
def split_by_pipe (text : List Char) : List (List Char) :=
  splitPipeAux [] text

/-- Scanner for `re.findall(r'[^D]+[D]+', text)` over a delimiter class `D`.
`run` holds the non-delimiter characters of the candidate match built so
far, `drun` the delimiter characters following them.  A match needs a
non-empty `run` followed by a non-empty `drun`; scanning is left-to-right,
non-overlapping, and both character classes are matched greedily (the two
classes are disjoint, so no backtracking arises).  Positions at which no
match can start (leading delimiter characters) are skipped, exactly as
CPython's scanner advances one position after a failed match attempt. -/
def findallAux (D : Char → Bool) (run drun : List Char) :
    List Char → List (List Char)
  | [] => if drun = [] then [] else [run ++ drun]
  | c :: rest =>
    if D c then
      if run = [] then findallAux D [] [] rest
      else findallAux D run (drun ++ [c]) rest
    else
      if drun = [] then findallAux D (run ++ [c]) [] rest
      else (run ++ drun) :: findallAux D [c] [] rest

/-- Model of `re.findall(r'[^D]+[D]+', text)` (for the punctuation strategy the class
is `isPunctDelim`, for the intelligent strategy's pass 1 it is `isTermDelim`;
the capture group `(...)` around the whole intelligent pattern returns the
same strings as the full match). -/
def pyFindallRuns (D : Char → Bool) (text : List Char) : List (List Char) :=
  findallAux D [] [] text

/-- Scanner for `re.split(r'(?<=[D])\s*', text)`.  The pattern matches the
(possibly empty) maximal whitespace run at every position immediately after
a delimiter character, so a piece ends right after each delimiter character
and the following whitespace is consumed.  `skipWS` records that the scanner
sits directly after an emitted delimiter and is discarding that whitespace.
Since no delimiter is itself whitespace, no qualifying position is skipped
by CPython's advance-by-one rule after an empty match, and a trailing
delimiter yields a final empty piece, as `re.split` does. -/
def splitLBAux (D : Char → Bool) (skipWS : Bool) (acc : List Char) :
    List Char → List (List Char)
  | [] => [acc]
  | c :: rest =>
    if skipWS && isPySpace c then splitLBAux D true acc rest
    else if D c then (acc ++ [c]) :: splitLBAux D true [] rest
    else splitLBAux D false (acc ++ [c]) rest

/-- Model of `re.split(r'(?<=[D])\s*', text)`. -/
def pySplitAfterDelims (D : Char → Bool) (text : List Char) : List (List Char) :=
  splitLBAux D false [] text

/-- The remainder logic shared by `_split_by_punctuation` (keep branch) and
`_split_intelligent` (pass 1):

    last_match_end = sum(len(s) for s in segments)
    if last_match_end < len(text):
        remaining = text[last_match_end:].strip()
        if remaining:
            segments.append(remaining)

Note the source computes `last_match_end` as the *sum of the match lengths*,
which undercounts the true end of the last match when the matches do not
start at position 0 (i.e. when `text` begins with delimiter characters that
`re.findall` skipped). -/
def appendRemainder (text : List Char) (segments : List (List Char)) :
    List (List Char) :=
  if (segments.map List.length).sum < text.length then
    if pyStrip (text.drop ((segments.map List.length).sum)) = [] then segments
    else segments ++ [pyStrip (text.drop ((segments.map List.length).sum))]
  else segments

/-- Model of `_split_by_punctuation(text, keep_delimiter)`. -/
def split_by_punctuation (text : List Char) (keep_delimiter : Bool) :
    List (List Char) :=
  if keep_delimiter then appendRemainder text (pyFindallRuns isPunctDelim text)
  else pySplitAfterDelims isPunctDelim text

/-- Model of `_split_by_length(text, length)`: `text[i:i+length]` for
`i in range(0, len(text), length)`.  (For `length = 0` Python's `range`
raises; the function is only ever used with `length ≥ 1`, and the embedding
returns `[]` in that out-of-contract case.) -/
def split_by_length (length : Nat) (text : List Char) : List (List Char) :=
  if h1 : text = [] then []
  else if h2 : length = 0 then []
  else text.take length :: split_by_length length (text.drop length)
termination_by text.length
decreasing_by
  simp only [List.length_drop]
  exact Nat.sub_lt (List.length_pos.mpr h1) (Nat.pos_of_ne_zero h2)

/-- One match of a compiled regular expression: its span `[start, stop)` in
the subject string and the texts of its captured groups, in order. -/
structure PyMatch where
  start : Nat
  stop : Nat
  groups : List (List Char)

/-- CPython `re.split` given the pattern's match list on `text`: the pieces
of `text` between consecutive matches, with the captured groups of every
match inserted between the surrounding pieces (as `re.split` does when the
pattern contains capturing groups), and the piece after the last match at
the end. -/
def pySplitMatches (text : List Char) : Nat → List PyMatch → List (List Char)
  | pos, [] => [text.drop pos]
  | pos, m :: ms =>
    ((text.drop pos).take (m.start - pos)) ::
      (m.groups ++ pySplitMatches text m.stop ms)

/-- The stretches of `text` strictly between the matches (plus the stretch
before the first match and after the last one): `pySplitMatches` with the
captured groups left out. -/
def matchGaps (text : List Char) : Nat → List PyMatch → List (List Char)
  | pos, [] => [text.drop pos]
  | pos, m :: ms =>
    ((text.drop pos).take (m.start - pos)) :: matchGaps text m.stop ms

/-- Model of `_split_by_regex(text, pattern, keep_delimiter)`: `re.split` under the
compiled pattern's match semantics; a pattern that fails to compile
(`regexc = none`, the `re.error` branch) falls back to
`_split_by_punctuation(text, keep_delimiter)`. -/
def split_by_regex (text : List Char)
    (regexc : Option (List Char → List PyMatch)) (keep_delimiter : Bool) :
    List (List Char) :=
  match regexc with
  | some f => pySplitMatches text 0 (f text)
  | none => split_by_punctuation text keep_delimiter

/-- Scanner for `re.split(r'([^P]+[P]+)', seg)`: because the capture group
spans the whole pattern, `re.split` interleaves the gaps between matches
with the captured matches themselves.  States: collecting the gap before
the next match (`run = drun = []`), collecting the non-`P` run of a
candidate match (`drun = []`), or collecting its trailing `P` run.  At the
end of input an incomplete candidate (no trailing `P`) belongs to the final
gap, and a complete match is followed by an empty final gap. -/
def splitCapAux (P : Char → Bool) (gap run drun : List Char) :
    List Char → List (List Char)
  | [] =>
    if drun = [] then [gap ++ run]
    else [gap, run ++ drun, []]
  | c :: rest =>
    if P c then
      if run = [] then splitCapAux P (gap ++ [c]) [] [] rest
      else splitCapAux P gap run (drun ++ [c]) rest
    else
      if drun = [] then splitCapAux P gap (run ++ [c]) [] rest
      else gap :: (run ++ drun) :: splitCapAux P [] [c] [] rest

/-- Model of `re.split(r'([^P]+[P]+)', seg)`. -/
def pySplitCaptureRuns (P : Char → Bool) (seg : List Char) : List (List Char) :=
  splitCapAux P [] [] [] seg

/-- Pass 1 of `_split_intelligent`: primary segments from
`re.findall(r'([^。！？!?]+[。！？!?]+)', text)` plus the (stripped,
non-empty) remainder computed from the summed match lengths. -/
def intelligentPrimary (text : List Char) : List (List Char) :=
  appendRemainder text (pyFindallRuns isTermDelim text)

/-- Pass 2 of `_split_intelligent` applied to one primary segment: segments
longer than 100 characters are re-split on comma/semicolon-terminated runs
(keeping only pieces that are non-empty after stripping); shorter segments
pass through unchanged. -/
def refineSegment (seg : List Char) : List (List Char) :=
  if 100 < seg.length then
    (pySplitCaptureRuns isPauseDelim seg).filter (fun s => !(pyStrip s).isEmpty)
  else [seg]

/-- The refined segment list entering pass 3 of `_split_intelligent`. -/
def intelligentRefined (text : List Char) : List (List Char) :=
  (intelligentPrimary text).flatMap refineSegment

/-- Pass 3 of `_split_intelligent`: the short-fragment merge loop.

    final_segments = []
    temp = ""
    for seg in refined_segments:
        seg = seg.strip()
        if len(temp) + len(seg) < 10 and final_segments:
            temp = temp + seg
        else:
            if temp:
                final_segments.append(temp)
            temp = seg
    if temp:
        final_segments.append(temp)
-/
def mergeShortAux (final : List (List Char)) (temp : List Char) :
    List (List Char) → List (List Char)
  | [] => if temp = [] then final else final ++ [temp]
  | seg :: rest =>
    if temp.length + (pyStrip seg).length < 10 ∧ final ≠ [] then
      mergeShortAux final (temp ++ pyStrip seg) rest
    else if temp = [] then mergeShortAux final (pyStrip seg) rest
    else mergeShortAux (final ++ [temp]) (pyStrip seg) rest

/-- Model of `_split_intelligent(text)`. -/
def split_intelligent (text : List Char) : List (List Char) :=
  mergeShortAux [] [] (intelligentRefined text)

/-- The strategy dispatch of `split_to_batch` (the chain of
`if split_mode == ...` tests on the already-stripped text); an unknown mode
leaves `segments = []`. -/
def dispatchSegments (split_mode : String) (text : List Char)
    (split_length : Nat) (regexc : Option (List Char → List PyMatch))
    (keep_delimiter : Bool) : List (List Char) :=
  if split_mode = "竖线分割" then split_by_pipe text
  else if split_mode = "标点符号" then split_by_punctuation text keep_delimiter
  else if split_mode = "固定长度" then split_by_length split_length text
  else if split_mode = "自定义正则" then split_by_regex text regexc keep_delimiter
  else if split_mode = "智能分句" then split_intelligent text
  else []

/-- Model of `split_to_batch` up to (but not including) the `max_segments`
truncation: strip the input (returning `[]` when nothing is left), dispatch
on the strategy, then `[s.strip() for s in segments if s.strip()]` (stated
as strip-all-then-drop-blanks, which is the same list since the filter
condition tests the stripped value). -/
def preTruncation (text : List Char) (split_mode : String) (split_length : Nat)
    (regexc : Option (List Char → List PyMatch)) (keep_delimiter : Bool) :
    List (List Char) :=
  if pyStrip text = [] then []
  else
    ((dispatchSegments split_mode (pyStrip text) split_length regexc
        keep_delimiter).map pyStrip).filter (fun s => !s.isEmpty)

/-- Model of `split_to_batch(text, split_mode, max_segments, split_length,
regex_pattern, keep_delimiter)`: the cleaned segments, truncated to the
first `max_segments` when they are more numerous (the source's final
`if total == 0: return ([],)` returns the same empty list the general path
does, so it needs no separate case). -/
def split_to_batch (text : List Char) (split_mode : String)
    (max_segments : Nat) (split_length : Nat)
    (regexc : Option (List Char → List PyMatch)) (keep_delimiter : Bool) :
    List (List Char) :=
  if max_segments <
      (preTruncation text split_mode split_length regexc keep_delimiter).length
  then (preTruncation text split_mode split_length regexc keep_delimiter).take
    max_segments
  else preTruncation text split_mode split_length regexc keep_delimiter

/-- The fixed-length segmentation as the specification words it: the
consecutive slices of `splitLength` characters starting at offsets
`0, n, 2n, ...` (the number of slices is `⌈len/n⌉`, and only the final one
may be shorter). -/
def chunksSpec (length : Nat) (text : List Char) : List (List Char) :=
  (List.range ((text.length + length - 1) / length)).map
    (fun i => (text.drop (i * length)).take length)

/-! ## Support lemmas about `pyStrip` -/

lemma dropWhile_dropWhile_self (p : Char → Bool) (l : List Char) :
    (l.dropWhile p).dropWhile p = l.dropWhile p := by
  induction l with
  | nil => rfl
  | cons x xs ih =>
    by_cases h : p x
    · simp [List.dropWhile_cons, h, ih]
    · simp [List.dropWhile_cons, h]

lemma dropWhile_head_false (p : Char → Bool) (l : List Char) (y : Char)
    (ys : List Char) (h : l.dropWhile p = y :: ys) : p y = false := by
  induction l with
  | nil => simp at h
  | cons x xs ih =>
    by_cases hx : p x
    · rw [List.dropWhile_cons, if_pos hx] at h; exact ih h
    · rw [List.dropWhile_cons, if_neg hx] at h
      injection h with h1 _
      subst h1
      exact Bool.eq_false_iff.mpr hx

lemma stripR_append (a : List Char) :
    (a.reverse.dropWhile isPySpace).reverse ++
      (a.reverse.takeWhile isPySpace).reverse = a := by
  rw [← List.reverse_append, List.takeWhile_append_dropWhile, List.reverse_reverse]

lemma pyStrip_eq_self_of (l : List Char) (h1 : l.dropWhile isPySpace = l)
    (h2 : l.reverse.dropWhile isPySpace = l.reverse) : pyStrip l = l := by
  unfold pyStrip
  rw [h1, h2, List.reverse_reverse]

lemma pyStrip_idem (l : List Char) : pyStrip (pyStrip l) = pyStrip l := by
  apply pyStrip_eq_self_of
  · cases hr : pyStrip l with
    | nil => rfl
    | cons y ys =>
      unfold pyStrip at hr
      have happ := stripR_append (l.dropWhile isPySpace)
      rw [hr] at happ
      have hy : isPySpace y = false :=
        dropWhile_head_false isPySpace l y
          (ys ++ ((l.dropWhile isPySpace).reverse.takeWhile isPySpace).reverse)
          (by rw [← List.cons_append]; exact happ.symm)
      rw [List.dropWhile_cons, if_neg (by simp [hy])]
  · unfold pyStrip
    rw [List.reverse_reverse]
    exact dropWhile_dropWhile_self isPySpace _

lemma exists_notSpace_dropWhile (p : Char → Bool) (l : List Char)
    (h : ∃ c ∈ l, p c = false) : ∃ c ∈ l.dropWhile p, p c = false := by
  induction l with
  | nil => simp at h
  | cons x xs ih =>
    by_cases hx : p x
    · rw [List.dropWhile_cons, if_pos hx]
      apply ih
      obtain ⟨c, hc, hpc⟩ := h
      rcases List.mem_cons.mp hc with rfl | hc'
      · simp [hx] at hpc
      · exact ⟨c, hc', hpc⟩
    · rw [List.dropWhile_cons, if_neg hx]; exact h

lemma pyStrip_ne_nil_of_mem (l : List Char) (c : Char) (hc : c ∈ l)
    (hns : isPySpace c = false) : pyStrip l ≠ [] := by
  unfold pyStrip
  intro h
  obtain ⟨d, hd, hdns⟩ :=
    exists_notSpace_dropWhile isPySpace l ⟨c, hc, hns⟩
  obtain ⟨e, he, -⟩ :=
    exists_notSpace_dropWhile isPySpace (l.dropWhile isPySpace).reverse
      ⟨d, List.mem_reverse.mpr hd, hdns⟩
  rw [List.reverse_eq_nil_iff] at h
  rw [h] at he
  exact absurd he (List.not_mem_nil e)

lemma list_not_isEmpty_iff (l : List Char) : (!l.isEmpty) = true ↔ l ≠ [] := by
  cases l <;> simp

/-! ## Support lemmas about the strategy pipelines -/

lemma findallAux_mem_delim (D : Char → Bool) :
    ∀ (l run drun : List Char), (∀ c ∈ drun, D c = true) →
      ∀ s ∈ findallAux D run drun l, ∃ c ∈ s, D c = true := by
  intro l
  induction l with
  | nil =>
    intro run drun hinv s hs
    by_cases hd : drun = []
    · simp [findallAux, hd] at hs
    · simp only [findallAux, if_neg hd, List.mem_singleton] at hs
      subst hs
      obtain ⟨d, ds, rfl⟩ : ∃ d ds, drun = d :: ds := by
        cases drun with
        | nil => exact absurd rfl hd
        | cons d ds => exact ⟨d, ds, rfl⟩
      exact ⟨d, by simp, hinv d (by simp)⟩
  | cons c rest ih =>
    intro run drun hinv s hs
    simp only [findallAux] at hs
    by_cases hD : D c
    · rw [if_pos hD] at hs
      by_cases hrun : run = []
      · rw [if_pos hrun] at hs
        exact ih [] [] (by simp) s hs
      · rw [if_neg hrun] at hs
        refine ih run (drun ++ [c]) ?_ s hs
        intro x hx
        rcases List.mem_append.mp hx with hx' | hx'
        · exact hinv x hx'
        · rw [List.mem_singleton] at hx'; subst hx'; exact hD
    · rw [if_neg hD] at hs
      by_cases hdr : drun = []
      · rw [if_pos hdr] at hs
        exact ih (run ++ [c]) [] (by simp) s hs
      · rw [if_neg hdr] at hs
        rcases List.mem_cons.mp hs with rfl | hs'
        · obtain ⟨d, ds, rfl⟩ : ∃ d ds, drun = d :: ds := by
            cases drun with
            | nil => exact absurd rfl hdr
            | cons d ds => exact ⟨d, ds, rfl⟩
          exact ⟨d, by simp, hinv d (by simp)⟩
        · exact ih [c] [] (by simp) s hs'

lemma term_not_space : ∀ c, isTermDelim c = true → isPySpace c = false := by
  intro c h
  simp only [isTermDelim, Bool.or_eq_true, decide_eq_true_eq] at h
  rcases h with ((((rfl | rfl) | rfl) | rfl) | rfl) <;> decide

lemma findall_strip_ne_nil (D : Char → Bool)
    (hD : ∀ c, D c = true → isPySpace c = false) (text s : List Char)
    (hs : s ∈ pyFindallRuns D text) : pyStrip s ≠ [] := by
  obtain ⟨c, hc, hDc⟩ := findallAux_mem_delim D text [] [] (by simp) s hs
  exact pyStrip_ne_nil_of_mem s c hc (hD c hDc)

lemma appendRemainder_strip_ne_nil (text : List Char)
    (base : List (List Char)) (h : ∀ s ∈ base, pyStrip s ≠ []) :
    ∀ s ∈ appendRemainder text base, pyStrip s ≠ [] := by
  intro s hs
  unfold appendRemainder at hs
  by_cases h1 : (base.map List.length).sum < text.length
  · rw [if_pos h1] at hs
    by_cases h2 : pyStrip (text.drop ((base.map List.length).sum)) = []
    · rw [if_pos h2] at hs; exact h s hs
    · rw [if_neg h2] at hs
      rcases List.mem_append.mp hs with hs' | hs'
      · exact h s hs'
      · rw [List.mem_singleton] at hs'
        subst hs'
        rw [pyStrip_idem]
        exact h2
  · rw [if_neg h1] at hs; exact h s hs

lemma intelligentPrimary_strip_ne_nil (text : List Char) :
    ∀ s ∈ intelligentPrimary text, pyStrip s ≠ [] :=
  appendRemainder_strip_ne_nil text _
    (fun s hs => findall_strip_ne_nil isTermDelim term_not_space text s hs)

lemma intelligentRefined_strip_ne_nil (text : List Char) :
    ∀ s ∈ intelligentRefined text, pyStrip s ≠ [] := by
  intro s hs
  unfold intelligentRefined at hs
  rw [List.mem_flatMap] at hs
  obtain ⟨seg, hseg, hsmem⟩ := hs
  unfold refineSegment at hsmem
  by_cases hlen : 100 < seg.length
  · rw [if_pos hlen] at hsmem
    exact (list_not_isEmpty_iff _).mp (List.mem_filter.mp hsmem).2
  · rw [if_neg hlen] at hsmem
    rw [List.mem_singleton] at hsmem
    rw [hsmem]
    exact intelligentPrimary_strip_ne_nil text seg hseg

lemma mergeShortAux_append (l : List (List Char)) :
    ∀ (final : List (List Char)) (temp : List Char), final ≠ [] →
      ∃ xs, mergeShortAux final temp l = final ++ xs := by
  induction l with
  | nil =>
    intro final temp _
    by_cases ht : temp = []
    · exact ⟨[], by simp [mergeShortAux, ht]⟩
    · exact ⟨[temp], by simp [mergeShortAux, ht]⟩
  | cons seg rest ih =>
    intro final temp hf
    by_cases hc : temp.length + (pyStrip seg).length < 10 ∧ final ≠ []
    · simp only [mergeShortAux]
      rw [if_pos hc]
      exact ih final (temp ++ pyStrip seg) hf
    · simp only [mergeShortAux]
      rw [if_neg hc]
      by_cases ht : temp = []
      · rw [if_pos ht]; exact ih final (pyStrip seg) hf
      · rw [if_neg ht]
        obtain ⟨xs, hxs⟩ := ih (final ++ [temp]) (pyStrip seg) (by simp)
        exact ⟨[temp] ++ xs, by rw [hxs, List.append_assoc]⟩

lemma mergeShortAux_head (l : List (List Char)) (temp : List Char)
    (ht : temp ≠ []) : ∃ xs, mergeShortAux [] temp l = temp :: xs := by
  cases l with
  | nil => exact ⟨[], by simp [mergeShortAux, ht]⟩
  | cons seg rest =>
    have hc : ¬(temp.length + (pyStrip seg).length < 10 ∧
        ([] : List (List Char)) ≠ []) := by simp
    simp only [mergeShortAux]
    rw [if_neg hc, if_neg ht]
    obtain ⟨xs, hxs⟩ :=
      mergeShortAux_append rest (([] : List (List Char)) ++ [temp])
        (pyStrip seg) (by simp)
    rw [hxs]
    exact ⟨xs, by simp⟩

lemma split_intelligent_head (text x : List Char) (xs : List (List Char))
    (h : split_intelligent text = x :: xs) :
    ∃ r rs, intelligentRefined text = r :: rs ∧ x = pyStrip r := by
  unfold split_intelligent at h
  cases hl : intelligentRefined text with
  | nil => rw [hl] at h; simp [mergeShortAux] at h
  | cons r rs =>
    rw [hl] at h
    have hr : pyStrip r ≠ [] :=
      intelligentRefined_strip_ne_nil text r (by rw [hl]; simp)
    have hc : ¬((List.length ([] : List Char)) + (pyStrip r).length < 10 ∧
        ([] : List (List Char)) ≠ []) := by simp
    simp only [mergeShortAux] at h
    rw [if_neg hc] at h
    rw [if_pos trivial] at h
    obtain ⟨ys, hys⟩ := mergeShortAux_head rs (pyStrip r) hr
    rw [hys] at h
    injection h with h1 _
    exact ⟨r, rs, rfl, h1.symm⟩


/-! ## Claim theorems -/

/-- C1: the claim states that with `keepDelimiter = false` the punctuation
strategy consumes and discards the delimiters, so that
`segment("你好。世界！", punctuation, 10, {keepDelimiter:false})` is
`["你好","世界"]`.  The source's split pattern `(?<=[。！？；…!?.;])\s*` is a
zero-width lookbehind, so the delimiter characters are *retained* at the end
of their segments: the code actually returns `["你好。","世界！"]`. -/
theorem C1_punctuation_nokeep_eval :
    split_to_batch "你好。世界！".data "标点符号" 10 50 none false
        = ["你好。".data, "世界！".data]
    ∧ split_to_batch "你好。世界！".data "标点符号" 10 50 none false
        ≠ ["你好".data, "世界".data] := by
  decide

/-- C2: the claim states that the keep-delimiter punctuation strategy
appends an extra final segment iff unmatched text remains after the last
matched delimiter run, never duplicating already-emitted characters.  On
`"。你好。"` the single match `"你好。"` ends at the end of the text (the
text is the skipped leading `。` followed by the match), yet the source's
`last_match_end = sum(len(s))` is 3 < 4, so the final character `。` — the
last character of the matched segment — is appended again as a segment. -/
theorem C2_punctuation_keep_remainder_eval :
    pyFindallRuns isPunctDelim "。你好。".data = ["你好。".data]
    ∧ "。你好。".data = '。' :: "你好。".data
    ∧ split_by_punctuation "。你好。".data true = ["你好。".data, "。".data]
    ∧ split_to_batch "。你好。".data "标点符号" 10 50 none true
        = ["你好。".data, "。".data] := by
  decide

/-- C3: in the intelligent strategy's third pass the next (stripped)
segment is merged into the rolling buffer exactly when the combined length
is under 10 and at least one segment has already been finalized; otherwise
the non-empty buffer is flushed and the buffer restarts with the current
segment; the remaining buffer is flushed at the end.  Consequently the
leading element of the output is always the (stripped) very first refined
segment, so a short fragment never appears as the leading element of the
output unless it is the very first segment overall. -/
theorem C3_intelligent_merge :
    (∀ (final : List (List Char)) (temp seg : List Char)
        (rest : List (List Char)),
        mergeShortAux final temp (seg :: rest) =
          if temp.length + (pyStrip seg).length < 10 ∧ final ≠ [] then
            mergeShortAux final (temp ++ pyStrip seg) rest
          else
            mergeShortAux (if temp = [] then final else final ++ [temp])
              (pyStrip seg) rest)
    ∧ (∀ (final : List (List Char)) (temp : List Char),
        mergeShortAux final temp [] =
          if temp = [] then final else final ++ [temp])
    ∧ (∀ (text x : List Char) (xs : List (List Char)),
        split_intelligent text = x :: xs →
          ∃ r rs, intelligentRefined text = r :: rs ∧ x = pyStrip r) := by
  refine ⟨?_, ?_, split_intelligent_head⟩
  · intro final temp seg rest
    by_cases hc : temp.length + (pyStrip seg).length < 10 ∧ final ≠ []
    · simp only [mergeShortAux]
      rw [if_pos hc, if_pos hc]
    · simp only [mergeShortAux]
      rw [if_neg hc, if_neg hc]
      by_cases ht : temp = []
      · rw [if_pos ht, if_pos ht]
      · rw [if_neg ht, if_neg ht]
  · intro final temp
    rfl

/-- Witness for C3 at the concrete input `"你好。"`. -/
theorem C3_intelligent_merge_witness :
    ∃ r rs, intelligentRefined "你好。".data = r :: rs
      ∧ "你好。".data = pyStrip r :=
  C3_intelligent_merge.2.2 "你好。".data "你好。".data [] (by decide)

/-- C5: for every strategy, input and option combination, every string in
the returned sequence is non-empty after trimming. -/
theorem C5_output_nonblank (text : List Char) (split_mode : String)
    (max_segments split_length : Nat)
    (regexc : Option (List Char → List PyMatch)) (keep_delimiter : Bool)
    (o : List Char)
    (ho : o ∈ split_to_batch text split_mode max_segments split_length regexc
        keep_delimiter) :
    pyStrip o ≠ [] := by
  have h1 : o ∈ preTruncation text split_mode split_length regexc
      keep_delimiter := by
    by_cases h : max_segments <
        (preTruncation text split_mode split_length regexc keep_delimiter).length
    · simp only [split_to_batch, if_pos h] at ho
      exact List.take_subset _ _ ho
    · simp only [split_to_batch, if_neg h] at ho
      exact ho
  by_cases h2 : pyStrip text = []
  · simp only [preTruncation, if_pos h2] at h1
    exact absurd h1 (List.not_mem_nil o)
  · simp only [preTruncation, if_neg h2] at h1
    obtain ⟨hmem, hpred⟩ := List.mem_filter.mp h1
    obtain ⟨s, -, rfl⟩ := List.mem_map.mp hmem
    rw [pyStrip_idem]
    exact (list_not_isEmpty_iff _).mp hpred

/-- Witness for C5: the pipe strategy on `"a"` emits `"a"`, which is
non-empty after trimming. -/
theorem C5_output_nonblank_witness : pyStrip "a".data ≠ [] :=
  C5_output_nonblank "a".data "竖线分割" 10 50 none true "a".data (by decide)

/-- C6: the returned sequence never exceeds `max_segments` elements, and
whenever the cleaned segmentation before truncation is longer, the output
is exactly its first `max_segments` elements in source order.  (The
overflow warning is a `print` diagnostic with no effect on the returned
value, and no failure path exists: the function is total.) -/
theorem C6_truncation (text : List Char) (split_mode : String)
    (max_segments split_length : Nat)
    (regexc : Option (List Char → List PyMatch)) (keep_delimiter : Bool) :
    (split_to_batch text split_mode max_segments split_length regexc
        keep_delimiter).length ≤ max_segments
    ∧ (max_segments <
          (preTruncation text split_mode split_length regexc
              keep_delimiter).length →
        split_to_batch text split_mode max_segments split_length regexc
            keep_delimiter
          = (preTruncation text split_mode split_length regexc
              keep_delimiter).take max_segments) := by
  constructor
  · by_cases h : max_segments <
        (preTruncation text split_mode split_length regexc keep_delimiter).length
    · simp only [split_to_batch, if_pos h, List.length_take]
      exact min_le_left _ _
    · simp only [split_to_batch, if_neg h]
      exact Nat.not_lt.mp h
  · intro h
    simp only [split_to_batch, if_pos h]

/-- Witness for C6: the pipe strategy yields 3 segments on `"a|b|c"` and
`max_segments = 2` keeps exactly the first two. -/
theorem C6_truncation_witness :
    2 < (preTruncation "a|b|c".data "竖线分割" 50 none true).length
    ∧ split_to_batch "a|b|c".data "竖线分割" 2 50 none true
        = (preTruncation "a|b|c".data "竖线分割" 50 none true).take 2 :=
  ⟨by decide,
   (C6_truncation "a|b|c".data "竖线分割" 2 50 none true).2 (by decide)⟩

/-- C7: whenever the input text is empty after trimming, `split_to_batch`
returns the empty sequence, for every strategy and option combination (the
early `return ([],)` after `text.strip()`); no error is involved. -/
theorem C7_empty_input (text : List Char) (split_mode : String)
    (max_segments split_length : Nat)
    (regexc : Option (List Char → List PyMatch)) (keep_delimiter : Bool)
    (h : pyStrip text = []) :
    split_to_batch text split_mode max_segments split_length regexc
      keep_delimiter = [] := by
  simp [split_to_batch, preTruncation, h]

/-- Witness for C7 on the whitespace-only input `"  "`. -/
theorem C7_empty_input_witness :
    split_to_batch "  ".data "智能分句" 5 50 none true = [] :=
  C7_empty_input "  ".data "智能分句" 5 50 none true (by decide)

/-- C8: when the custom pattern fails to compile (`regexc = none`, the
`re.error` branch), `split_to_batch` under the custom-regex strategy
returns exactly what the punctuation strategy returns on the same text with
the same `keep_delimiter`.  The embedding is a total function — the
exception is caught inside `_split_by_regex` and only printed. -/
theorem C8_invalid_regex_fallback (text : List Char)
    (max_segments split_length : Nat) (keep_delimiter : Bool) :
    split_to_batch text "自定义正则" max_segments split_length none
        keep_delimiter
      = split_to_batch text "标点符号" max_segments split_length none
          keep_delimiter := by
  have hd : dispatchSegments "自定义正则" (pyStrip text) split_length none
        keep_delimiter
      = dispatchSegments "标点符号" (pyStrip text) split_length none
          keep_delimiter := rfl
  simp only [split_to_batch, preTruncation, hd]

/-- C10: a `split_mode` outside the five enumerated strategy names leaves
`segments = []` in the dispatch, so `split_to_batch` returns the empty
sequence without error. -/
theorem C10_unknown_mode (text : List Char) (split_mode : String)
    (max_segments split_length : Nat)
    (regexc : Option (List Char → List PyMatch)) (keep_delimiter : Bool)
    (htext : text ≠ [])
    (h : split_mode ∉ ["竖线分割", "标点符号", "固定长度", "自定义正则", "智能分句"]) :
    split_to_batch text split_mode max_segments split_length regexc
      keep_delimiter = [] := by
  simp only [List.mem_cons, List.not_mem_nil, or_false, not_or] at h
  obtain ⟨h1, h2, h3, h4, h5⟩ := h
  have hd : dispatchSegments split_mode (pyStrip text) split_length regexc
      keep_delimiter = [] := by
    simp only [dispatchSegments, if_neg h1, if_neg h2, if_neg h3, if_neg h4,
      if_neg h5]
  simp [split_to_batch, preTruncation, hd]

/-- Witness for C10 with the out-of-enumeration mode name `"pipe"`. -/
theorem C10_unknown_mode_witness :
    split_to_batch "a".data "pipe" 10 50 none true = [] :=
  C10_unknown_mode "a".data "pipe" 10 50 none true (by decide) (by decide)

/-! ## Custom-regex strategy: gaps between matches -/

lemma pySplitMatches_eq_gaps (text : List Char) :
    ∀ (ms : List PyMatch) (pos : Nat), (∀ m ∈ ms, m.groups = []) →
      pySplitMatches text pos ms = matchGaps text pos ms := by
  intro ms
  induction ms with
  | nil => intro pos _; rfl
  | cons m ms ih =>
    intro pos h
    simp only [pySplitMatches, matchGaps]
    rw [h m (by simp), List.nil_append,
      ih m.stop (fun x hx => h x (by simp [hx]))]

lemma matchGaps_nil_all_nil :
    ∀ (ms : List PyMatch) (pos : Nat) (s : List Char),
      s ∈ matchGaps [] pos ms → s = [] := by
  intro ms
  induction ms with
  | nil =>
    intro pos s hs
    simp only [matchGaps, List.drop_nil, List.mem_singleton] at hs
    exact hs
  | cons m ms ih =>
    intro pos s hs
    simp only [matchGaps] at hs
    rcases List.mem_cons.mp hs with rfl | hs'
    · simp
    · exact ih m.stop s hs'

lemma cleaned_matchGaps_nil (ms : List PyMatch) (pos : Nat) :
    ((matchGaps [] pos ms).map pyStrip).filter (fun s => !s.isEmpty) = [] := by
  rw [List.filter_eq_nil_iff]
  intro a ha
  obtain ⟨s, hs, rfl⟩ := List.mem_map.mp ha
  rw [matchGaps_nil_all_nil ms pos s hs]
  simp [pyStrip]

/-- Match semantics of a compiled pattern that matches a single comma
without capturing, on the subject `"a,b"`: one match spanning `[1, 2)`,
no groups. -/
def commaMatches : List Char → List PyMatch := fun _ => [⟨1, 2, []⟩]

/-- Match semantics of the compiled pattern `(,)` — a comma inside a
capturing group — on the subject `"a,b"`: one match spanning `[1, 2)`
whose group 1 captures `","`. -/
def commaCaptureMatches : List Char → List PyMatch := fun _ => [⟨1, 2, [[',']]⟩]

/-- C4 (counterexample): the claim says text matched by the pattern is
removed and never appears as an output segment.  With the compiling pattern
`(,)` (a capturing group), CPython's `re.split` inserts the captured text
into the result, so on `"a,b"` the output is `["a", ",", "b"]`: the matched
`","` does appear as an output segment, and the output differs from the
stretches between matches. -/
theorem C4_capture_group_counterexample :
    split_to_batch "a,b".data "自定义正则" 10 50 (some commaCaptureMatches) true
        = [['a'], [','], ['b']]
    ∧ ((matchGaps "a,b".data 0 (commaCaptureMatches "a,b".data)).map
          pyStrip).filter (fun s => !s.isEmpty) = [['a'], ['b']]
    ∧ ([['a'], [','], ['b']] : List (List Char)) ≠ [['a'], ['b']] := by
  decide

/-- C4 (amended): for a pattern that compiles successfully and contains no
capturing groups, the output segments are exactly the trimmed, non-empty
stretches of the (stripped) text between the pattern's matches, in order
(provided they fit within `max_segments`). -/
theorem C4_custom_regex_gaps (text : List Char)
    (f : List Char → List PyMatch) (max_segments split_length : Nat)
    (keep_delimiter : Bool)
    (hg : ∀ m ∈ f (pyStrip text), m.groups = [])
    (hlen : (((matchGaps (pyStrip text) 0 (f (pyStrip text))).map
        pyStrip).filter (fun s => !s.isEmpty)).length ≤ max_segments) :
    split_to_batch text "自定义正则" max_segments split_length (some f)
        keep_delimiter
      = ((matchGaps (pyStrip text) 0 (f (pyStrip text))).map pyStrip).filter
          (fun s => !s.isEmpty) := by
  have hd : dispatchSegments "自定义正则" (pyStrip text) split_length (some f)
      keep_delimiter = pySplitMatches (pyStrip text) 0 (f (pyStrip text)) := rfl
  have hpre : preTruncation text "自定义正则" split_length (some f)
      keep_delimiter
      = ((matchGaps (pyStrip text) 0 (f (pyStrip text))).map pyStrip).filter
          (fun s => !s.isEmpty) := by
    by_cases h2 : pyStrip text = []
    · rw [h2]
      simp only [preTruncation, if_pos h2, h2]
      exact (cleaned_matchGaps_nil (f []) 0).symm
    · simp only [preTruncation, if_neg h2, hd,
        pySplitMatches_eq_gaps (pyStrip text) (f (pyStrip text)) 0 hg]
  simp only [split_to_batch, hpre]
  rw [if_neg (Nat.not_lt.mpr hlen)]

/-- Witness for C4 (amended) on `"a,b"` with a non-capturing comma
pattern: the comma is removed and the stretches around it survive. -/
theorem C4_custom_regex_gaps_witness :
    split_to_batch "a,b".data "自定义正则" 10 50 (some commaMatches) true
      = [['a'], ['b']] :=
  (C4_custom_regex_gaps "a,b".data commaMatches 10 50 true (by decide)
    (by decide)).trans (by decide)

/-! ## Fixed-length strategy: slice characterization -/

lemma chunksSpec_nil (n : Nat) : chunksSpec n [] = [] := by
  unfold chunksSpec
  have h : (List.length ([] : List Char) + n - 1) / n = 0 := by
    rcases Nat.eq_zero_or_pos n with rfl | hn
    · simp
    · apply Nat.div_eq_of_lt
      simp only [List.length_nil]
      omega
  rw [h]
  rfl

lemma chunksSpec_cons (length : Nat) (hlen : 1 ≤ length) (text : List Char)
    (ht : text ≠ []) :
    chunksSpec length text
      = text.take length :: chunksSpec length (text.drop length) := by
  have hL : 1 ≤ text.length := List.length_pos.mpr ht
  unfold chunksSpec
  rw [List.length_drop]
  have h1 : text.length + length - 1 = (text.length - 1) + length := by omega
  have h3 : (text.length - length + length - 1) / length
      = (text.length - 1) / length := by
    rcases Nat.le_total text.length length with hle | hge
    · have e1 : text.length - length = 0 := by omega
      rw [e1]
      rw [Nat.div_eq_of_lt (by omega), Nat.div_eq_of_lt (by omega)]
    · have e1 : text.length - length + length - 1 = text.length - 1 := by omega
      rw [e1]
  rw [h1, Nat.add_div_right _ (by omega), h3, List.range_succ_eq_map,
    List.map_cons]
  congr 1
  · simp
  · rw [List.map_map]
    apply List.map_congr_left
    intro i _
    simp only [Function.comp_apply]
    have e2 : Nat.succ i * length = i * length + length := by
      rw [Nat.succ_mul]
    rw [e2, List.drop_drop]
    congr 2
    omega

lemma split_by_length_eq_chunksSpec_aux :
    ∀ (N : Nat) (text : List Char), text.length ≤ N →
      ∀ (length : Nat), 1 ≤ length →
        split_by_length length text = chunksSpec length text := by
  intro N
  induction N with
  | zero =>
    intro text h len hl
    have ht : text = [] := List.length_eq_zero.mp (Nat.le_zero.mp h)
    subst ht
    rw [split_by_length]
    simp [chunksSpec_nil]
  | succ N ih =>
    intro text h len hl
    by_cases ht : text = []
    · subst ht
      rw [split_by_length]
      simp [chunksSpec_nil]
    · rw [split_by_length, dif_neg ht, dif_neg (by omega : ¬len = 0)]
      rw [ih (text.drop len) (by rw [List.length_drop]; omega) len hl]
      exact (chunksSpec_cons len hl text ht).symm

/-- C9: for `splitLength ≥ 1` the fixed-length segmentation is exactly the
consecutive slices of `splitLength` characters at offsets `0, n, 2n, ...`
(only the final slice may be shorter), and
`segment("abcdefgh", fixed_length, 10, {splitLength:3})` is
`["abc","def","gh"]`. -/
theorem C9_fixed_length :
    (∀ (length : Nat) (text : List Char), 1 ≤ length →
        split_by_length length text = chunksSpec length text)
    ∧ split_to_batch "abcdefgh".data "固定长度" 10 3 none true
        = ["abc".data, "def".data, "gh".data] := by
  have hgen : ∀ (length : Nat) (text : List Char), 1 ≤ length →
      split_by_length length text = chunksSpec length text :=
    fun len text hl =>
      split_by_length_eq_chunksSpec_aux text.length text le_rfl len hl
  refine ⟨hgen, ?_⟩
  have hd : dispatchSegments "固定长度" (pyStrip "abcdefgh".data) 3 none true
      = split_by_length 3 (pyStrip "abcdefgh".data) := rfl
  have hsbl : split_by_length 3 (pyStrip "abcdefgh".data)
      = chunksSpec 3 (pyStrip "abcdefgh".data) := hgen 3 _ (by omega)
  simp only [split_to_batch, preTruncation, hd, hsbl]
  decide

/-- Witness for C9's general slice characterization at `n = 3` on
`"abcde"`. -/
theorem C9_fixed_length_witness :
    split_by_length 3 "abcde".data = chunksSpec 3 "abcde".data :=
  C9_fixed_length.1 3 "abcde".data (by decide)
